import Mathlib

/-!
Verification of the iPhone serial/IMEI scanner page (the detection pipeline in
the repository's scanner component). Definitions are shallow embeddings of the
TypeScript source functions; JS numbers that only ever hold small exact values
are modelled as `Nat`/`Int`/`Rat`, JS strings as `String`/`List Char`, and JS
`Map` iteration (insertion order) as an association list built by a left fold.
-/

namespace OcrScan

/-! ## Character classes for the regex patterns

`SERIAL_PATTERN = /[A-Z0-9]{10,12}/g` and
`IMEI_PATTERN = /\d{2}\s?\d{6}\s?\d{6}\s?\d|\d{15}/g` (source lines 26, 27).
-/

/-- Membership in the regex class `[A-Z0-9]`. -/
def isSerialChar (c : Char) : Bool :=
  (('A' ≤ c ∧ c ≤ 'Z') ∨ ('0' ≤ c ∧ c ≤ '9') : Bool)

/-- Membership in the regex class `\s` (ASCII part of the JS class). -/
def isJsSpace (c : Char) : Bool :=
  c = ' ' ∨ c = '\t' ∨ c = '\n' ∨ c = '\r' ∨ c = '\x0b' ∨ c = '\x0c'

/-! ## normalizeImei / isValidImei (source lines 91-112) -/

/-- `normalizeImei`: `imei.replace(/\s/g, '')` — remove all whitespace. -/
def normalizeImei (imei : String) : String :=
  String.mk (imei.data.filter (fun c => ¬ isJsSpace c))

/-- One digit of the Luhn sum as the source computes it: digits at odd
0-based index are doubled, with 9 subtracted when the double exceeds 9. -/
def luhnAdjust (i d : Nat) : Nat :=
  if i % 2 = 1 then (if 9 < 2 * d then 2 * d - 9 else 2 * d) else d

/-- Numeric value of a decimal digit character. -/
def digitVal (c : Char) : Nat := c.toNat - '0'.toNat

/-- `isValidImei` (source lines 96-112): normalize, require exactly 15
decimal digits, then Luhn: the loop `for (let i = 0; i < 14; i++)` sums the
first 14 adjusted digits and compares `(10 - (sum % 10)) % 10` with the
15th digit. -/
def isValidImei (imei : String) : Bool :=
  let digits := normalizeImei imei
  if digits.length = 15 ∧ digits.data.all Char.isDigit then
    let ds := digits.data.map digitVal
    let sum := (List.range 14).foldl (fun acc i => acc + luhnAdjust i (ds.getD i 0)) 0
    let checkDigit := (10 - sum % 10) % 10
    checkDigit = ds.getD 14 0
  else
    false

/-- Modelled from the spec (§4.2, the literal sentence behind claim C8):
"double every second digit from the left starting at index 1 (0-based),
subtract 9 from any doubled value exceeding 9, sum all 15 adjusted digits,
and require `(10 - (sum mod 10)) mod 10` to equal the last digit". It sums
all 15 adjusted digits, unlike the source's 14-digit loop. -/
def isValidImeiSpecLiteral (imei : String) : Bool :=
  let digits := normalizeImei imei
  if digits.length = 15 ∧ digits.data.all Char.isDigit then
    let ds := digits.data.map digitVal
    let sum := ((List.range 15).map (fun i => luhnAdjust i (ds.getD i 0))).sum
    (10 - sum % 10) % 10 = ds.getD 14 0
  else
    false

/-- The amended reading of the spec sentence: sum only the 14 adjusted
digits at indices 0..13 and compare the derived check digit with the last
digit. Written with `map`/`sum` from the spec's words, to be compared with
the source's fold. -/
def isValidImeiSpec14 (imei : String) : Bool :=
  let digits := normalizeImei imei
  if digits.length = 15 ∧ digits.data.all Char.isDigit then
    let ds := digits.data.map digitVal
    let sum := ((List.range 14).map (fun i => luhnAdjust i (ds.getD i 0))).sum
    (10 - sum % 10) % 10 = ds.getD 14 0
  else
    false

/-! ## JS `new Set(...)` spread: de-duplication keeping first occurrences -/

/-- Auxiliary: keep elements not seen before (JS `Set` insertion order). -/
def jsSetDedupAux : List String → List String → List String
  | [], _ => []
  | x :: rest, seen =>
    if x ∈ seen then jsSetDedupAux rest seen
    else x :: jsSetDedupAux rest (x :: seen)

/-- `[...new Set(l)]`: first-occurrence de-duplication. -/
def jsSetDedup (l : List String) : List String := jsSetDedupAux l []

/-! ## Global-regex matching for SERIAL_PATTERN and IMEI_PATTERN

`text.match(PATTERN)` collects all non-overlapping matches scanning left to
right; a match of `[A-Z0-9]{10,12}` at a position needs at least 10 class
characters there and greedily takes at most 12.
-/

/-- All matches of `SERIAL_PATTERN` in a character list. The fuel argument
(always called with the list's length, which bounds the number of scan
steps) makes the recursion structural. -/
def serialMatchesFuel : Nat → List Char → List (List Char)
  | 0, _ => []
  | _, [] => []
  | fuel + 1, c :: rest =>
    let run := (c :: rest).takeWhile isSerialChar
    if 10 ≤ run.length then
      run.take 12 :: serialMatchesFuel fuel ((c :: rest).drop (run.take 12).length)
    else
      serialMatchesFuel fuel rest

/-- `text.match(SERIAL_PATTERN)` as a list of matched substrings. -/
def serialMatches (cs : List Char) : List (List Char) :=
  serialMatchesFuel cs.length cs

/-- `extractSerialNumbers` (source lines 122-128): match `SERIAL_PATTERN`,
drop matches that are exactly 15 digits (`/^\d{15}$/`), de-duplicate. -/
def extractSerialNumbers (text : String) : List String :=
  jsSetDedup (((serialMatches text.data).map String.mk).filter
    (fun m => ¬ (m.length = 15 ∧ m.data.all Char.isDigit)))

/-- Consume exactly `n` decimal digits, returning the rest of the input. -/
def eatDigits : Nat → List Char → Option (List Char)
  | 0, cs => some cs
  | _ + 1, [] => none
  | n + 1, c :: cs => if c.isDigit then eatDigits n cs else none

/-- `\s?` followed by a continuation, with the regex engine's backtracking:
try consuming one whitespace character first, fall back to the empty match. -/
def eatOptSpace (k : List Char → Option (List Char)) : List Char → Option (List Char)
  | [] => k []
  | c :: cs => if isJsSpace c then (k cs).orElse (fun _ => k (c :: cs)) else k (c :: cs)

/-- Attempt `IMEI_PATTERN` at the start of the input; on success return the
length of the match. First alternative `\d{2}\s?\d{6}\s?\d{6}\s?\d`, second
alternative `\d{15}`. -/
def imeiMatchAt (cs : List Char) : Option Nat :=
  let alt1 :=
    (eatDigits 2 cs).bind (fun r1 =>
      eatOptSpace (fun r2 =>
        (eatDigits 6 r2).bind (fun r3 =>
          eatOptSpace (fun r4 =>
            (eatDigits 6 r4).bind (fun r5 =>
              eatOptSpace (fun r6 => eatDigits 1 r6) r5)) r3)) r1)
  let alt2 := eatDigits 15 cs
  ((alt1.orElse (fun _ => alt2)).map (fun rest => cs.length - rest.length))

/-- Attempt `SERIAL_PATTERN` at the start of the input; on success return
the length of the match. -/
def serialMatchAt (cs : List Char) : Option Nat :=
  let run := cs.takeWhile isSerialChar
  if 10 ≤ run.length then some (min 12 run.length) else none

/-- All matches of `IMEI_PATTERN`, scanning with fuel as above. -/
def imeiMatchesFuel : Nat → List Char → List (List Char)
  | 0, _ => []
  | _, [] => []
  | fuel + 1, c :: rest =>
    match imeiMatchAt (c :: rest) with
    | some len => (c :: rest).take len :: imeiMatchesFuel fuel ((c :: rest).drop len)
    | none => imeiMatchesFuel fuel rest

/-- `text.match(IMEI_PATTERN)` as a list of matched substrings. -/
def imeiMatches (cs : List Char) : List (List Char) :=
  imeiMatchesFuel cs.length cs

/-- `extractImeis` (source lines 131-145): match `IMEI_PATTERN`, normalize
each match, keep those of normalized length 15, de-duplicate. -/
def extractImeis (text : String) : List String :=
  jsSetDedup (((imeiMatches text.data).map (fun m => normalizeImei (String.mk m))).filter
    (fun n => n.length = 15))

/-! ## Candidate aggregator: getMostFrequent / calculateConfidence

The JS code builds a `Map<string, number>` by `arr.forEach(v =>
counts.set(v, (counts.get(v) || 0) + 1))` and then iterates it in insertion
order. The map is modelled as an association list whose keys appear in
first-occurrence order.
-/

/-- `counts.set(v, (counts.get(v) || 0) + 1)`: increment the entry of `v`,
or append a fresh entry. -/
def bump : List (String × Nat) → String → List (String × Nat)
  | [], v => [(v, 1)]
  | (k, c) :: rest, v =>
    if k = v then (k, c + 1) :: rest else (k, c) :: bump rest v

/-- The occurrence-count map of a candidate list, in insertion order. -/
def countsList (arr : List String) : List (String × Nat) :=
  arr.foldl bump []

/-- One step of the `counts.forEach` loop in `getMostFrequent` (source
lines 157-162): adopt a value when its count strictly exceeds the running
maximum and reaches `minCount`. -/
def gmfStep (minCount : Nat) (best : Option String × Nat) (kc : String × Nat) :
    Option String × Nat :=
  if best.2 < kc.2 ∧ minCount ≤ kc.2 then (some kc.1, kc.2) else best

/-- `getMostFrequent` (source lines 148-165). The call sites all pass
`minCount = 3` (the default). -/
def getMostFrequent (arr : List String) (minCount : Nat) : Option String :=
  if arr.isEmpty then none
  else ((countsList arr).foldl (gmfStep minCount) (none, 0)).1

/-- The maximal occurrence count of any value in the list, read off the
counts map as `Math.max(...counts.values())` does. -/
def mapMaxCount (arr : List String) : Nat :=
  ((countsList arr).map Prod.snd).foldr max 0

/-- The spec's `maxCount` — "the highest occurrence count": maximum of the
per-position occurrence counts. -/
def specMaxCount (arr : List String) : Nat :=
  (arr.map (fun v => arr.count v)).foldr max 0

/-- `calculateConfidence` (source lines 168-178). `Math.round` on a
non-negative JS number is `round` on the exact rational. -/
def calculateConfidence (candidates : List String) : ℤ :=
  if candidates.isEmpty then 0
  else
    let len : ℚ := candidates.length
    let consistency : ℚ := (mapMaxCount candidates : ℚ) / max len 1
    min 100 (round (consistency * 100 * (min len 5 / 5)))

/-- Modelled from the spec (§4.4): `confidence(history) = min(100,
round(consistencyRatio * 100 * min(len,5)/5))` with `consistencyRatio =
maxCount / len`. -/
def confidenceSpec (history : List String) : ℤ :=
  let len : ℚ := history.length
  let consistencyRatio : ℚ := (specMaxCount history : ℚ) / len
  min 100 (round (consistencyRatio * 100 * (min len 5 / 5)))

/-! ## Detection state machine (source lines 6-23, 210-223, 439-591) -/

inductive DetectionPhase
  | scanning
  | detecting
  | locking
  | confirmed
deriving DecidableEq

inductive ScreenType
  | serial
  | imei
  | none
deriving DecidableEq

/-- The `'serial' | 'imei'` narrowing that `runFullExtraction` and the
candidate-update step receive once a screen has been recognized. -/
inductive FieldScreen
  | serial
  | imei
deriving DecidableEq

def FieldScreen.toScreenType : FieldScreen → ScreenType
  | .serial => .serial
  | .imei => .imei

structure DetectionState where
  phase : DetectionPhase
  currentScreen : ScreenType
  confidence : ℤ
  serialCandidates : List String
  imeiCandidates : List String
  imei2Candidates : List String
  confirmedSerial : Option String
  confirmedImei : Option String
  confirmedImei2 : Option String
  serialImage : Option String
  imeiImage : Option String
  frameCount : Nat

/-- The initial state passed to `useState` (source lines 210-223). -/
def initialDetectionState : DetectionState :=
  { phase := .scanning, currentScreen := .none, confidence := 0,
    serialCandidates := [], imeiCandidates := [], imei2Candidates := [],
    confirmedSerial := .none, confirmedImei := .none, confirmedImei2 := .none,
    serialImage := .none, imeiImage := .none, frameCount := 0 }

/-- `arr.slice(-20)`: the last 20 elements. -/
def takeLast (n : Nat) (l : List String) : List String :=
  l.drop (l.length - n)

/-- The `setDetection` updater of one detection cycle (source lines
516-576): append the cycle's extracted candidates to the current screen's
windows, recompute the confirmed values and confidence, capture evidence
images on first confirmation, and derive the next phase. The confirmed
values produced by the extractors are non-empty strings, so JS truthiness
of `confirmedSerial`/`confirmedImei` is `Option.isSome`. -/
def updateDetection (prev : DetectionState) (screenType : FieldScreen)
    (serials imeis : List String) (currentFrameImage : String) : DetectionState :=
  let newSerialCandidates :=
    match screenType with
    | .serial => takeLast 20 (prev.serialCandidates ++ serials)
    | .imei => prev.serialCandidates
  let newImeiCandidates :=
    match screenType with
    | .imei => takeLast 20 (prev.imeiCandidates ++ imeis.take 1)
    | .serial => prev.imeiCandidates
  let newImei2Candidates :=
    if screenType = .imei ∧ 1 < imeis.length then
      takeLast 20 (prev.imei2Candidates ++ (imeis.drop 1).take 1)
    else prev.imei2Candidates
  let currentConfidence :=
    match screenType with
    | .serial => calculateConfidence newSerialCandidates
    | .imei => calculateConfidence newImeiCandidates
  let confirmedSerial := getMostFrequent newSerialCandidates 3
  let confirmedImei := getMostFrequent newImeiCandidates 3
  let confirmedImei2 := getMostFrequent newImei2Candidates 3
  let serialImage :=
    if screenType = .serial ∧ confirmedSerial.isSome ∧ prev.confirmedSerial = .none
    then some currentFrameImage else prev.serialImage
  let imeiImage :=
    if screenType = .imei ∧ confirmedImei.isSome ∧ prev.confirmedImei = .none
    then some currentFrameImage else prev.imeiImage
  let phase1 : DetectionPhase :=
    if screenType = .serial ∧ confirmedSerial.isSome then .locking
    else if screenType = .imei ∧ confirmedImei.isSome then .locking
    else .detecting
  let phase :=
    if confirmedSerial.isSome ∧ confirmedImei.isSome then .confirmed else phase1
  { phase := phase,
    currentScreen := screenType.toScreenType,
    confidence := currentConfidence,
    serialCandidates := newSerialCandidates,
    imeiCandidates := newImeiCandidates,
    imei2Candidates := newImei2Candidates,
    confirmedSerial := confirmedSerial,
    confirmedImei := confirmedImei,
    confirmedImei2 := confirmedImei2,
    serialImage := serialImage,
    imeiImage := imeiImage,
    frameCount := prev.frameCount + 1 }

/-- Whether the entry of `runDetectionLoop` (source lines 439-448) leads to
another scheduled cycle. When the guard fires it re-schedules only if the
phase is not `confirmed`; when the body runs, every exit path schedules the
next cycle (source lines 455-459, 464-471, 476-489, 497-501, 586-590). -/
def runDetectionLoopSchedules (isActive isProcessing : Bool) (phase : DetectionPhase) :
    Bool :=
  if ¬ isActive ∨ isProcessing ∨ phase = .confirmed then phase ≠ .confirmed
  else true

/-! ## OCR worker page-segmentation state across a fine pass
(source lines 358-436) -/

inductive Psm
  | sparseText
  | singleLine
  | singleBlock
deriving DecidableEq

structure WorkerState where
  psm : Psm

/-- The worker-configuration effect of `runFullExtraction`: set the
page-segmentation mode for the screen type, call `recognize`, restore
sparse-text, and run the extractor — except that the `catch` path (source
lines 433-435) returns before the restoring `setParameters` call, because
the reset (lines 420-423) is not in a `finally` block. `recognize` is the
external OCR capability, which may throw. -/
def runFullExtraction (w : WorkerState) (screenType : FieldScreen)
    (recognize : Psm → Except Unit String) :
    WorkerState × (List String × List String) :=
  let w1 : WorkerState :=
    { psm := match screenType with
             | .serial => .singleLine
             | .imei => .singleBlock }
  match recognize w1.psm with
  | .error _ => (w1, ([], []))
  | .ok text =>
    let w2 : WorkerState := { psm := .sparseText }
    match screenType with
    | .serial => (w2, (extractSerialNumbers text, []))
    | .imei => (w2, ([], extractImeis text))

/-! ## Geometry/crop planner (source lines 377-403), exact rational
coordinates -/

structure Bbox where
  x0 : ℚ
  y0 : ℚ
  x1 : ℚ
  y1 : ℚ

structure CropRect where
  x : ℚ
  y : ℚ
  w : ℚ
  h : ℚ

/-- The crop rectangle computed by `runFullExtraction` from a label box in
low-resolution coordinates (source lines 379-387). -/
def planCrop (labelBbox : Bbox) (lowResWidth canvasWidth canvasHeight : ℚ) : CropRect :=
  let scaleUp := canvasWidth / lowResWidth
  let labelHeight := (labelBbox.y1 - labelBbox.y0) * scaleUp
  let padding := labelHeight * (1 / 2)
  let cropX := max 0 (labelBbox.x0 * scaleUp)
  let cropY := max 0 (labelBbox.y0 * scaleUp - padding)
  let cropWidth := min (canvasWidth - cropX) ((labelBbox.x1 - labelBbox.x0) * scaleUp * 5)
  let cropHeight := min (canvasHeight - cropY) (labelHeight * 3 + padding)
  ⟨cropX, cropY, cropWidth, cropHeight⟩

/-! ## Coarse-pass screen classification with the global regexes' state
(source lines 302-329)

`SERIAL_PATTERN.test` / `IMEI_PATTERN.test` use the module-level `/g`
regexes: a call scans from the regex's `lastIndex`; on success it sets
`lastIndex` past the match, on failure it resets `lastIndex` to 0.
-/

/-- Scan positions left to right looking for a match of `matchAt`,
returning the end index of the first match. `suffix` is the input at
position `i`. -/
def scanPositions (matchAt : List Char → Option Nat) :
    List Char → Nat → Option Nat
  | suffix, i =>
    match matchAt suffix with
    | some len => some (i + len)
    | none =>
      match suffix with
      | [] => .none
      | _ :: rest => scanPositions matchAt rest (i + 1)

/-- `regex.test(text)` for a `/g` regex: scan from `lastIndex`, return the
outcome and the updated `lastIndex`. -/
def regexTestG (matchAt : List Char → Option Nat) (text : List Char)
    (lastIndex : Nat) : Bool × Nat :=
  match scanPositions matchAt (text.drop lastIndex) lastIndex with
  | some e => (true, e)
  | .none => (false, 0)

/-- First index at which `pat` occurs in `hay`, if any. -/
def idxOfAux : List Char → List Char → Nat → Option Nat
  | hay, pat, i =>
    if pat.isPrefixOf hay then some i
    else
      match hay with
      | [] => .none
      | _ :: t => idxOfAux t pat (i + 1)

/-- JS `String.prototype.indexOf`: `-1` when absent. -/
def jsIndexOf (hay pat : List Char) : Int :=
  match idxOfAux hay pat 0 with
  | some i => (i : Int)
  | .none => -1

/-- The screen-type classification of `runFastDetection` (source lines
307-329), threading the two global regexes' `lastIndex` values. The label
tests `/serial/i` and `/imei/i` are non-global and stateless; the
pattern-presence tests in the ambiguous branch are the stateful `/g`
`.test` calls, `IMEI_PATTERN` first. -/
def classifyScreen (text : String) (serialLastIndex imeiLastIndex : Nat) :
    ScreenType × Nat × Nat :=
  let raw := text.data
  let lower := raw.map Char.toLower
  let hasSerialLabel := (idxOfAux lower ("serial".data) 0).isSome
  let hasImeiLabel := (idxOfAux lower ("imei".data) 0).isSome
  if hasImeiLabel ∧ ¬ hasSerialLabel then (.imei, serialLastIndex, imeiLastIndex)
  else if hasSerialLabel ∧ ¬ hasImeiLabel then (.serial, serialLastIndex, imeiLastIndex)
  else if hasSerialLabel ∨ hasImeiLabel then
    let imeiTest := regexTestG imeiMatchAt raw imeiLastIndex
    let serialTest := regexTestG serialMatchAt raw serialLastIndex
    let st : ScreenType :=
      if imeiTest.1 ∧ ¬ serialTest.1 then .imei
      else if serialTest.1 ∧ ¬ imeiTest.1 then .serial
      else if jsIndexOf lower ("imei".data) < jsIndexOf lower ("serial".data) then .imei
      else .serial
    (st, serialTest.2, imeiTest.2)
  else (.none, serialLastIndex, imeiLastIndex)

/-! ## Helper lemmas -/

theorem jsSetDedupAux_mem {l seen : List String} {x : String}
    (hx : x ∈ jsSetDedupAux l seen) : x ∈ l := by
  induction l generalizing seen with
  | nil => simp [jsSetDedupAux] at hx
  | cons a t ih =>
    rw [jsSetDedupAux] at hx
    split at hx
    · exact List.mem_cons_of_mem _ (ih hx)
    · rcases List.mem_cons.mp hx with h | h
      · exact h ▸ List.mem_cons_self _ _
      · exact List.mem_cons_of_mem _ (ih h)

theorem jsSetDedupAux_nodup (l : List String) :
    ∀ seen, (∀ x ∈ jsSetDedupAux l seen, x ∉ seen) ∧ (jsSetDedupAux l seen).Nodup := by
  induction l with
  | nil => intro seen; simp [jsSetDedupAux]
  | cons a t ih =>
    intro seen
    rw [jsSetDedupAux]
    split
    · exact (ih seen)
    · constructor
      · intro x hx
        rcases List.mem_cons.mp hx with h | h
        · subst h; assumption
        · intro hxs
          exact (ih (a :: seen)).1 x h (List.mem_cons_of_mem _ hxs)
      · refine List.nodup_cons.mpr ⟨?_, (ih (a :: seen)).2⟩
        intro ha
        exact (ih (a :: seen)).1 a ha (List.mem_cons_self _ _)

theorem jsSetDedup_mem {l : List String} {x : String} (hx : x ∈ jsSetDedup l) : x ∈ l :=
  jsSetDedupAux_mem hx

theorem jsSetDedup_nodup (l : List String) : (jsSetDedup l).Nodup :=
  (jsSetDedupAux_nodup l []).2

theorem takeLast_of_le {n : Nat} {l : List String} (h : l.length ≤ n) :
    takeLast n l = l := by
  unfold takeLast
  rw [Nat.sub_eq_zero_of_le h, List.drop_zero]

theorem le_foldrMax {l : List Nat} {a : Nat} (ha : a ∈ l) : a ≤ l.foldr max 0 := by
  induction l with
  | nil => cases ha
  | cons b t ih =>
    rcases List.mem_cons.mp ha with h | h
    · subst h; exact le_max_left _ _
    · exact le_trans (ih h) (le_max_right _ _)

theorem foldrMax_le {l : List Nat} {b : Nat} (hb : ∀ a ∈ l, a ≤ b) :
    l.foldr max 0 ≤ b := by
  induction l with
  | nil => exact Nat.zero_le _
  | cons a t ih =>
    exact max_le (hb a (List.mem_cons_self _ _))
      (ih fun x hx => hb x (List.mem_cons_of_mem _ hx))

theorem foldrMax_mem_of_pos {l : List Nat} (h : 0 < l.foldr max 0) :
    l.foldr max 0 ∈ l := by
  induction l with
  | nil => simp at h
  | cons a t ih =>
    simp only [List.foldr_cons] at h ⊢
    rcases le_total (t.foldr max 0) a with hle | hle
    · rw [max_eq_left hle]; exact List.mem_cons_self _ _
    · rw [max_eq_right hle] at h ⊢
      exact List.mem_cons_of_mem _ (ih h)

theorem foldl_add_eq_sum (l : List Nat) (f : Nat → Nat) (a : Nat) :
    l.foldl (fun acc i => acc + f i) a = a + (l.map f).sum := by
  induction l generalizing a with
  | nil => simp
  | cons b t ih =>
    simp only [List.foldl_cons, List.map_cons, List.sum_cons, ih (a + f b)]
    omega

/-! ## Properties of the matches of SERIAL_PATTERN -/

theorem serialMatchesFuel_mem {fuel : Nat} {cs m : List Char}
    (hm : m ∈ serialMatchesFuel fuel cs) :
    10 ≤ m.length ∧ m.length ≤ 12 ∧ m.all isSerialChar = true ∧
      ∃ pre post, cs = pre ++ (m ++ post) := by
  induction fuel generalizing cs with
  | zero => simp [serialMatchesFuel] at hm
  | succ fuel ih =>
    match cs with
    | [] => simp [serialMatchesFuel] at hm
    | c :: rest =>
      rw [serialMatchesFuel] at hm
      by_cases hrun : 10 ≤ ((c :: rest).takeWhile isSerialChar).length
      · rw [if_pos hrun] at hm
        rcases List.mem_cons.mp hm with h | h
        · subst h
          set run := (c :: rest).takeWhile isSerialChar with hrundef
          refine ⟨?_, ?_, ?_, [], run.drop 12 ++ (c :: rest).dropWhile isSerialChar, ?_⟩
          · rw [List.length_take]; omega
          · rw [List.length_take]; omega
          · rw [List.all_eq_true]
            intro x hx
            exact List.mem_takeWhile_imp (List.mem_of_mem_take hx)
          · rw [List.nil_append, ← List.append_assoc, List.take_append_drop, hrundef]
            exact (List.takeWhile_append_dropWhile _ _).symm
        · rcases ih h with ⟨h1, h2, h3, pre, post, hdecomp⟩
          refine ⟨h1, h2, h3, (c :: rest).take (((c :: rest).takeWhile isSerialChar).take 12).length ++ pre, post, ?_⟩
          conv_lhs => rw [← List.take_append_drop ((((c :: rest).takeWhile isSerialChar).take 12).length) (c :: rest)]
          rw [hdecomp, List.append_assoc]
      · rw [if_neg hrun] at hm
        rcases ih hm with ⟨h1, h2, h3, pre, post, hdecomp⟩
        exact ⟨h1, h2, h3, c :: pre, post, by rw [hdecomp]; rfl⟩

theorem extractSerialNumbers_mem {text : String} {s : String}
    (hs : s ∈ extractSerialNumbers text) :
    10 ≤ s.length ∧ s.length ≤ 12 ∧ s.data.all isSerialChar = true ∧
      ¬ (s.length = 15 ∧ s.data.all Char.isDigit) ∧
      ∃ pre post, text.data = pre ++ (s.data ++ post) := by
  have h1 := jsSetDedup_mem hs
  rcases List.mem_filter.mp h1 with ⟨h2, h3⟩
  rcases List.mem_map.mp h2 with ⟨m, hmem, hmk⟩
  rcases serialMatchesFuel_mem hmem with ⟨hl, hu, hall, pre, post, hdecomp⟩
  have hdata : s.data = m := by rw [← hmk]
  have hlen : s.length = m.length := by rw [← hmk]; rfl
  refine ⟨by omega, by omega, by rw [hdata]; exact hall, ?_, pre, post, by rw [hdata]; exact hdecomp⟩
  intro hcon
  rw [decide_eq_true_eq] at h3
  exact h3 hcon

/-! ## The counts map represents occurrence counts -/

/-- The association list `acc` is exactly the occurrence-count map of the
already-processed part `pre`. -/
def Represents (pre : List String) (acc : List (String × Nat)) : Prop :=
  (∀ kc ∈ acc, kc.2 = pre.count kc.1 ∧ 0 < kc.2) ∧
  (∀ k ∈ pre, (k, pre.count k) ∈ acc) ∧
  (acc.map Prod.fst).Nodup

theorem bump_of_not_mem {acc : List (String × Nat)} {v : String}
    (hv : v ∉ acc.map Prod.fst) : bump acc v = acc ++ [(v, 1)] := by
  induction acc with
  | nil => rfl
  | cons kc rest ih =>
    obtain ⟨k, c⟩ := kc
    simp only [List.map_cons, List.mem_cons, not_or] at hv
    rw [bump, if_neg (fun h => hv.1 h.symm), ih hv.2, List.cons_append]

theorem bump_of_mem {acc : List (String × Nat)} {v : String} {c : Nat}
    (hnd : (acc.map Prod.fst).Nodup) (hmem : (v, c) ∈ acc) :
    ∃ l1 l2, acc = l1 ++ (v, c) :: l2 ∧ bump acc v = l1 ++ (v, c + 1) :: l2 ∧
      v ∉ l1.map Prod.fst ∧ v ∉ l2.map Prod.fst := by
  induction acc with
  | nil => cases hmem
  | cons kc rest ih =>
    obtain ⟨k, c0⟩ := kc
    simp only [List.map_cons, List.nodup_cons] at hnd
    rcases List.mem_cons.mp hmem with h | h
    · cases h
      refine ⟨[], rest, rfl, ?_, by simp, hnd.1⟩
      rw [bump, if_pos rfl, List.nil_append]
    · have hk : k ≠ v := by
        intro he
        subst he
        exact hnd.1 (List.mem_map.mpr ⟨(k, c), h, rfl⟩)
      rcases ih hnd.2 h with ⟨l1, l2, hacc, hbump, hv1, hv2⟩
      refine ⟨(k, c0) :: l1, l2, by rw [hacc]; rfl, ?_, ?_, hv2⟩
      · rw [bump, if_neg hk, hbump]; rfl
      · simp only [List.map_cons, List.mem_cons, not_or]
        exact ⟨fun he => hk he.symm, hv1⟩

theorem count_append_singleton (pre : List String) (v k : String) :
    (pre ++ [v]).count k = pre.count k + if k = v then 1 else 0 := by
  rw [List.count_append]
  by_cases h : k = v
  · subst h; simp
  · simp [List.count_singleton', h]

theorem represents_bump {pre : List String} {acc : List (String × Nat)} {v : String}
    (hrep : Represents pre acc) : Represents (pre ++ [v]) (bump acc v) := by
  obtain ⟨hent, hcov, hnd⟩ := hrep
  by_cases hv : v ∈ acc.map Prod.fst
  · rcases List.mem_map.mp hv with ⟨kc0, hkc0, hfst⟩
    have hkc : (v, kc0.2) ∈ acc := by rw [← hfst]; exact hkc0
    set c := kc0.2 with hcdef
    rcases bump_of_mem hnd hkc with ⟨l1, l2, hacc, hbump, hv1, hv2⟩
    have hcount : c = pre.count v := (hent _ hkc).1
    have hkeys : (bump acc v).map Prod.fst = acc.map Prod.fst := by
      rw [hbump, hacc]; simp
    refine ⟨?_, ?_, by rw [hkeys]; exact hnd⟩
    · intro kc hkc2
      rw [hbump] at hkc2
      rcases List.mem_append.mp hkc2 with h | h
      · have hmem : kc ∈ acc := by rw [hacc]; exact List.mem_append_left _ h
        have hne : kc.1 ≠ v := by
          intro he
          exact hv1 (he ▸ List.mem_map.mpr ⟨kc, h, rfl⟩)
        rw [count_append_singleton, if_neg hne, Nat.add_zero]
        exact hent _ hmem
      · rcases List.mem_cons.mp h with h | h
        · subst h
          refine ⟨?_, Nat.succ_pos _⟩
          show c + 1 = (pre ++ [v]).count v
          rw [count_append_singleton, if_pos rfl, ← hcount]
        · have hmem : kc ∈ acc := by
            rw [hacc]
            exact List.mem_append_right _ (List.mem_cons_of_mem _ h)
          have hne : kc.1 ≠ v := by
            intro he
            exact hv2 (he ▸ List.mem_map.mpr ⟨kc, h, rfl⟩)
          rw [count_append_singleton, if_neg hne, Nat.add_zero]
          exact hent _ hmem
    · intro k2 hk2
      rw [count_append_singleton]
      by_cases he : k2 = v
      · subst he
        rw [if_pos rfl, ← hcount, hbump]
        exact List.mem_append_right _ (List.mem_cons_self _ _)
      · rw [if_neg he, Nat.add_zero]
        have hk2pre : k2 ∈ pre := by
          rcases List.mem_append.mp hk2 with h | h
          · exact h
          · exact absurd (List.mem_singleton.mp h) he
        have hold := hcov _ hk2pre
        rw [hacc] at hold
        rw [hbump]
        rcases List.mem_append.mp hold with h | h
        · exact List.mem_append_left _ h
        · rcases List.mem_cons.mp h with h | h
          · exact absurd (congrArg Prod.fst h) he
          · exact List.mem_append_right _ (List.mem_cons_of_mem _ h)
  · have hvpre : v ∉ pre := by
      intro hvp
      exact hv (List.mem_map.mpr ⟨(v, pre.count v), hcov _ hvp, rfl⟩)
    rw [bump_of_not_mem hv]
    refine ⟨?_, ?_, ?_⟩
    · intro kc hkc
      rcases List.mem_append.mp hkc with h | h
      · have hne : kc.1 ≠ v := by
          intro he
          exact hv (he ▸ List.mem_map.mpr ⟨kc, h, rfl⟩)
        rw [count_append_singleton, if_neg hne, Nat.add_zero]
        exact hent _ h
      · rcases List.mem_singleton.mp h with rfl
        refine ⟨?_, Nat.one_pos⟩
        show (1 : Nat) = (pre ++ [v]).count v
        rw [count_append_singleton, if_pos rfl, List.count_eq_zero.mpr hvpre]
    · intro k hk
      rw [count_append_singleton]
      by_cases he : k = v
      · subst he
        rw [if_pos rfl, List.count_eq_zero.mpr hvpre]
        exact List.mem_append_right _ (List.mem_singleton.mpr rfl)
      · rw [if_neg he, Nat.add_zero]
        have hkpre : k ∈ pre := by
          rcases List.mem_append.mp hk with h | h
          · exact h
          · exact absurd (List.mem_singleton.mp h) he
        exact List.mem_append_left _ (hcov _ hkpre)
    · rw [List.map_append]
      simp only [List.map_cons, List.map_nil]
      exact List.Nodup.append hnd (List.nodup_singleton _)
        (by intro x hx hy; rw [List.mem_singleton.mp hy] at hx; exact hv hx)

theorem represents_foldl (arr : List String) :
    ∀ (pre : List String) (acc : List (String × Nat)), Represents pre acc →
      Represents (pre ++ arr) (arr.foldl bump acc) := by
  induction arr with
  | nil => intro pre acc h; simpa using h
  | cons v rest ih =>
    intro pre acc h
    have h2 := ih (pre ++ [v]) (bump acc v) (represents_bump h)
    rw [List.append_assoc] at h2
    simpa using h2

theorem represents_countsList (arr : List String) : Represents arr (countsList arr) := by
  have h := represents_foldl arr [] []
    ⟨fun kc h => absurd h (List.not_mem_nil kc), fun k h => absurd h (List.not_mem_nil k),
      List.nodup_nil⟩
  simpa [countsList] using h

theorem countsList_count {arr : List String} {kc : String × Nat}
    (h : kc ∈ countsList arr) : kc.2 = arr.count kc.1 ∧ 0 < kc.2 :=
  (represents_countsList arr).1 kc h

theorem countsList_key_mem {arr : List String} {kc : String × Nat}
    (h : kc ∈ countsList arr) : kc.1 ∈ arr := by
  rcases countsList_count h with ⟨hc, hpos⟩
  rw [hc] at hpos
  exact List.count_pos_iff.mp hpos

theorem countsList_mem_of {arr : List String} {k : String} (h : k ∈ arr) :
    (k, arr.count k) ∈ countsList arr :=
  (represents_countsList arr).2.1 k h

/-! ## Behaviour of the getMostFrequent fold -/

theorem gmfFold_snd_le (m : Nat) (l : List (String × Nat)) (b : Option String × Nat) :
    b.2 ≤ (l.foldl (gmfStep m) b).2 := by
  induction l generalizing b with
  | nil => exact le_refl _
  | cons a t ih =>
    refine le_trans ?_ (ih (gmfStep m b a))
    unfold gmfStep
    split
    · next h => exact le_of_lt h.1
    · exact le_refl _

theorem gmfFold_entry_le (m : Nat) {l : List (String × Nat)} (b : Option String × Nat)
    {kc : String × Nat} (hmem : kc ∈ l) (hm : m ≤ kc.2) :
    kc.2 ≤ (l.foldl (gmfStep m) b).2 := by
  induction l generalizing b with
  | nil => cases hmem
  | cons a t ih =>
    rcases List.mem_cons.mp hmem with h | h
    · subst h
      rw [List.foldl_cons]
      refine le_trans ?_ (gmfFold_snd_le m t (gmfStep m b kc))
      unfold gmfStep
      split
      · exact le_refl _
      · next hneg =>
        rcases Nat.lt_or_ge b.2 kc.2 with hlt | hge
        · exact absurd ⟨hlt, hm⟩ hneg
        · exact hge
    · exact ih _ h

theorem gmfFold_cases (m : Nat) (l : List (String × Nat)) (b : Option String × Nat) :
    l.foldl (gmfStep m) b = b ∨
      ∃ kc, kc ∈ l ∧ l.foldl (gmfStep m) b = (some kc.1, kc.2) ∧ m ≤ kc.2 := by
  induction l generalizing b with
  | nil => exact Or.inl rfl
  | cons a t ih =>
    rw [List.foldl_cons]
    by_cases hstep : b.2 < a.2 ∧ m ≤ a.2
    · have hs : gmfStep m b a = (some a.1, a.2) := by unfold gmfStep; rw [if_pos hstep]
      rw [hs]
      rcases ih (some a.1, a.2) with h | ⟨kc, hkc, hfold, hm⟩
      · exact Or.inr ⟨a, List.mem_cons_self _ _, h, hstep.2⟩
      · exact Or.inr ⟨kc, List.mem_cons_of_mem _ hkc, hfold, hm⟩
    · have hs : gmfStep m b a = b := by unfold gmfStep; rw [if_neg hstep]
      rw [hs]
      rcases ih b with h | ⟨kc, hkc, hfold, hm⟩
      · exact Or.inl h
      · exact Or.inr ⟨kc, List.mem_cons_of_mem _ hkc, hfold, hm⟩

/-- Soundness of `getMostFrequent`: a returned value occurs in the list,
has at least `minCount` occurrences, and its count is maximal. -/
theorem getMostFrequent_eq_some {arr : List String} {m : Nat} {v : String}
    (h : getMostFrequent arr m = some v) :
    v ∈ arr ∧ m ≤ arr.count v ∧ ∀ u, arr.count u ≤ arr.count v := by
  unfold getMostFrequent at h
  split at h
  · cases h
  · rcases gmfFold_cases m (countsList arr) (none, 0) with hf | ⟨kc, hkcmem, hfold, hm⟩
    · rw [hf] at h; cases h
    · rw [hfold] at h
      have hv : kc.1 = v := Option.some.inj h
      rcases countsList_count hkcmem with ⟨hc, hpos⟩
      subst hv
      refine ⟨countsList_key_mem hkcmem, by omega, ?_⟩
      intro u
      by_cases hu : u ∈ arr
      · by_cases hmu : m ≤ arr.count u
        · have hentry := countsList_mem_of hu
          have := gmfFold_entry_le m (l := countsList arr) (none, 0) hentry hmu
          rw [hfold] at this
          simpa using le_trans this (le_of_eq hc)
        · omega
      · rw [List.count_eq_zero.mpr hu]
        exact Nat.zero_le _

/-- Completeness of `getMostFrequent`: as soon as some value reaches both
`minCount` and the maximal occurrence count, a value of maximal count is
returned. -/
theorem getMostFrequent_of_max {arr : List String} {m : Nat}
    (h1 : 1 ≤ m) (h2 : m ≤ specMaxCount arr) :
    ∃ v, getMostFrequent arr m = some v ∧ arr.count v = specMaxCount arr := by
  have hpos : 0 < specMaxCount arr := lt_of_lt_of_le h1 h2
  have hmem := foldrMax_mem_of_pos (l := arr.map fun v => arr.count v) hpos
  rcases List.mem_map.mp hmem with ⟨a, hamem, hacount⟩
  have hacount2 : arr.count a = specMaxCount arr := hacount
  have hne : arr.isEmpty = false := by
    cases arr with
    | nil => cases hamem
    | cons x t => rfl
  have hentry : (a, specMaxCount arr) ∈ countsList arr := by
    rw [← hacount2]
    exact countsList_mem_of hamem
  have hle := gmfFold_entry_le m (l := countsList arr) (none, 0) hentry h2
  rcases gmfFold_cases m (countsList arr) (none, 0) with hf | ⟨kc, hkcmem, hfold, hm⟩
  · rw [hf] at hle
    exact absurd hle (by simpa using Nat.not_le.mpr hpos)
  · have hsome : getMostFrequent arr m = some kc.1 := by
      unfold getMostFrequent
      rw [if_neg (by rw [hne]; exact Bool.false_ne_true), hfold]
    rcases getMostFrequent_eq_some hsome with ⟨hkmem, _, hmax⟩
    refine ⟨kc.1, hsome, le_antisymm ?_ ?_⟩
    · exact le_foldrMax (List.mem_map.mpr ⟨kc.1, hkmem, rfl⟩)
    · rw [← hacount2]
      exact hmax a

/-- A value that is the unique strict maximum (and reaches `minCount`) is
what `getMostFrequent` returns, whatever the map's iteration order. -/
theorem getMostFrequent_unique {arr : List String} {m : Nat} {v : String}
    (hmem : v ∈ arr) (hc : m ≤ arr.count v)
    (hstrict : ∀ u, u ≠ v → arr.count u < arr.count v) :
    getMostFrequent arr m = some v := by
  have hvpos : 0 < arr.count v := List.count_pos_iff.mpr hmem
  have hne : arr.isEmpty = false := by
    cases arr with
    | nil => cases hmem
    | cons x t => rfl
  have hentry := countsList_mem_of hmem
  have hle := gmfFold_entry_le m (l := countsList arr) (none, 0) hentry hc
  rcases gmfFold_cases m (countsList arr) (none, 0) with hf | ⟨kc, hkcmem, hfold, hm⟩
  · rw [hf] at hle
    simp only at hle
    omega
  · rw [hfold] at hle
    rcases countsList_count hkcmem with ⟨hcnt, hcpos⟩
    have hkv : kc.1 = v := by
      by_contra hneq
      have h1 := hstrict kc.1 hneq
      simp only at hle
      omega
    unfold getMostFrequent
    rw [if_neg (by rw [hne]; exact Bool.false_ne_true), hfold, hkv]

/-- The maximum over the counts map's values equals the maximum over the
per-position occurrence counts. -/
theorem mapMaxCount_eq_specMaxCount (arr : List String) :
    mapMaxCount arr = specMaxCount arr := by
  refine le_antisymm (foldrMax_le ?_) (foldrMax_le ?_)
  · intro x hx
    rcases List.mem_map.mp hx with ⟨kc, hkc, hsnd⟩
    rcases countsList_count hkc with ⟨hc, _⟩
    refine le_foldrMax (List.mem_map.mpr ⟨kc.1, countsList_key_mem hkc, ?_⟩)
    rw [← hsnd, hc]
  · intro x hx
    rcases List.mem_map.mp hx with ⟨a, hamem, hacount⟩
    refine le_foldrMax (List.mem_map.mpr ⟨(a, arr.count a), countsList_mem_of hamem, ?_⟩)
    rw [← hacount]


/-! ## Further helper lemmas for the claims -/

theorem gmf_append_self {w : List String} {v : String}
    (h1 : getMostFrequent w 3 = some v) (h2 : w.length < 20) :
    getMostFrequent (takeLast 20 (w ++ [v])) 3 = some v := by
  rw [takeLast_of_le (by rw [List.length_append]; simp; omega)]
  rcases getMostFrequent_eq_some h1 with ⟨hmem, hcount, hmax⟩
  apply getMostFrequent_unique
  · exact List.mem_append_left _ hmem
  · have h5 : [v].count v = 1 := by simp
    rw [List.count_append]
    omega
  · intro u hu
    have h3 := hmax u
    have h4 : [v].count u = 0 := by
      rw [List.count_eq_zero]
      simp [hu]
    have h5 : [v].count v = 1 := by simp
    rw [List.count_append, List.count_append]
    omega

theorem calculateConfidence_eq_spec (c : List String) :
    calculateConfidence c = confidenceSpec c := by
  unfold calculateConfidence confidenceSpec
  cases c with
  | nil => simp [specMaxCount, round_zero]
  | cons a t =>
    simp only [List.isEmpty_cons, if_false, Bool.false_eq_true]
    rw [mapMaxCount_eq_specMaxCount]
    congr 2
    rw [max_eq_left]
    have h : 1 ≤ (a :: t).length := by simp
    exact_mod_cast h

theorem calculateConfidence_bounds (c : List String) :
    0 ≤ calculateConfidence c ∧ calculateConfidence c ≤ 100 := by
  unfold calculateConfidence
  split
  · exact ⟨le_refl 0, by norm_num⟩
  · refine ⟨le_min (by norm_num) ?_, min_le_left _ _⟩
    rw [round_eq]
    refine Int.le_floor.mpr ?_
    push_cast
    have harg : (0 : ℚ) ≤
        (mapMaxCount c : ℚ) / max (c.length : ℚ) 1 * 100 * (min (c.length : ℚ) 5 / 5) := by
      have h1 : (0 : ℚ) ≤ (mapMaxCount c : ℚ) / max (c.length : ℚ) 1 := by
        apply div_nonneg
        · exact Nat.cast_nonneg _
        · exact le_trans (by norm_num) (le_max_right _ _)
      have h2 : (0 : ℚ) ≤ min (c.length : ℚ) 5 / 5 := by
        apply div_nonneg
        · exact le_min (Nat.cast_nonneg _) (by norm_num)
        · norm_num
      positivity
    linarith

theorem isValidImei_eq_spec14 (s : String) : isValidImei s = isValidImeiSpec14 s := by
  simp only [isValidImei, isValidImeiSpec14]
  split
  · rw [foldl_add_eq_sum, Nat.zero_add]
  · rfl

/-! # The claims -/

/-! ## C1 — confirmation is not monotonic across cycles -/

/-- C1 (counterexample): confirmation is not monotonic. Starting from the
initial session state, three cycles reading serial "AAAAAAAAAA" confirm it;
four later cycles reading "BBBBBBBBBB" silently replace the confirmed value
with a different one, with no reset in between. -/
theorem C1_counterexample :
    (updateDetection (updateDetection (updateDetection initialDetectionState
        .serial ["AAAAAAAAAA"] [] "f") .serial ["AAAAAAAAAA"] [] "f")
        .serial ["AAAAAAAAAA"] [] "f").confirmedSerial = some "AAAAAAAAAA" ∧
    (updateDetection (updateDetection (updateDetection (updateDetection
      (updateDetection (updateDetection (updateDetection initialDetectionState
        .serial ["AAAAAAAAAA"] [] "f") .serial ["AAAAAAAAAA"] [] "f")
        .serial ["AAAAAAAAAA"] [] "f") .serial ["BBBBBBBBBB"] [] "f")
        .serial ["BBBBBBBBBB"] [] "f") .serial ["BBBBBBBBBB"] [] "f")
        .serial ["BBBBBBBBBB"] [] "f").confirmedSerial = some "BBBBBBBBBB" ∧
    ("AAAAAAAAAA" : String) ≠ "BBBBBBBBBB" := by
  decide

/-- C1 (amended): a confirmed value is stable only conditionally: a later
cycle whose single extracted candidate equals the already-confirmed value,
while the bounded window has not yet reached its cap of 20, re-confirms the
same value (for the serial field, and likewise for the primary IMEI). In
general the confirmed value is recomputed from the window each cycle and a
later strict majority replaces it (see the counterexample). -/
theorem C1_confirmation_stability :
    ∀ (prev : DetectionState) (v img : String),
      (getMostFrequent prev.serialCandidates 3 = some v →
        prev.serialCandidates.length < 20 →
        (updateDetection prev .serial [v] [] img).confirmedSerial = some v) ∧
      (getMostFrequent prev.imeiCandidates 3 = some v →
        prev.imeiCandidates.length < 20 →
        (updateDetection prev .imei [] [v] img).confirmedImei = some v) := by
  intro prev v img
  constructor
  · intro h1 h2
    simp only [updateDetection]
    exact gmf_append_self h1 h2
  · intro h1 h2
    simp only [updateDetection]
    exact gmf_append_self h1 h2

/-- C1 witness. -/
theorem C1_witness :
    (updateDetection
      ⟨.detecting, .serial, 0, ["AAAAAAAAAA", "AAAAAAAAAA", "AAAAAAAAAA"], [], [],
        some "AAAAAAAAAA", .none, .none, .none, .none, 3⟩
      .serial ["AAAAAAAAAA"] [] "f").confirmedSerial = some "AAAAAAAAAA" :=
  (C1_confirmation_stability
    ⟨.detecting, .serial, 0, ["AAAAAAAAAA", "AAAAAAAAAA", "AAAAAAAAAA"], [], [],
      some "AAAAAAAAAA", .none, .none, .none, .none, 3⟩
    "AAAAAAAAAA" "f").1 (by decide) (by decide)

/-! ## C2 — resolve returns the maximal-count value; ties do not yield none -/

/-- C2 (counterexample): with two distinct values sharing the maximal count
3 (both at minSupport), `getMostFrequent` does not return "no
confirmation": it returns the first-inserted value. -/
theorem C2_counterexample :
    getMostFrequent ["ABC123", "ABC123", "ABC123", "XYZ999", "XYZ999", "XYZ999"] 3
      = some "ABC123" ∧
    ["ABC123", "ABC123", "ABC123", "XYZ999", "XYZ999", "XYZ999"].count "XYZ999"
      = ["ABC123", "ABC123", "ABC123", "XYZ999", "XYZ999", "XYZ999"].count "ABC123" ∧
    getMostFrequent ["ABC123", "ABC123", "ABC123", "XYZ999", "XYZ999", "XYZ999"] 3
      ≠ .none := by
  decide

/-- C2 (amended): `getMostFrequent` returns a value exactly when some value
reaches both `minSupport` and the maximal occurrence count; any returned
value occurs in the list, has at least `minSupport` occurrences, and has
maximal count (ties are broken by the counts map's insertion order — first
occurrence — rather than yielding none). The spec's two concrete examples
hold as stated. -/
theorem C2_resolve_characterization :
    (∀ (arr : List String) (m : Nat) (v : String), getMostFrequent arr m = some v →
        v ∈ arr ∧ m ≤ arr.count v ∧ ∀ u, arr.count u ≤ arr.count v) ∧
    (∀ (arr : List String) (m : Nat), 1 ≤ m → m ≤ specMaxCount arr →
        ∃ v, getMostFrequent arr m = some v ∧ arr.count v = specMaxCount arr) ∧
    getMostFrequent ["ABC123", "ABC123", "XYZ999"] 3 = .none ∧
    getMostFrequent ["ABC123", "ABC123", "XYZ999", "ABC123"] 3 = some "ABC123" ∧
    ["ABC123", "ABC123", "XYZ999", "ABC123"].count "ABC123" = 3 :=
  ⟨fun _ _ _ h => getMostFrequent_eq_some h,
   fun _ _ h1 h2 => getMostFrequent_of_max h1 h2,
   by decide, by decide, by decide⟩

/-- C2 witness. -/
theorem C2_witness :
    3 ≤ ["ABC123", "ABC123", "ABC123"].count "ABC123" :=
  (C2_resolve_characterization.1 ["ABC123", "ABC123", "ABC123"] 3 "ABC123" (by decide)).2.1

/-! ## C3 — the Confirmed phase requires serial and IMEI, not IMEI2 -/

/-- C3 (counterexample): a session that has confirmed the serial and the
primary IMEI enters the terminal `confirmed` phase even though the IMEI2
history is empty and IMEI2 is not confirmed — so the phase is not gated on
every tracked field. -/
theorem C3_counterexample :
    (updateDetection (updateDetection (updateDetection (updateDetection (updateDetection
      (updateDetection initialDetectionState
        .serial ["FTJHR20GPY"] [] "f") .serial ["FTJHR20GPY"] [] "f")
        .serial ["FTJHR20GPY"] [] "f") .imei [] ["490154203237518"] "f")
        .imei [] ["490154203237518"] "f") .imei [] ["490154203237518"] "f").phase
      = .confirmed ∧
    (updateDetection (updateDetection (updateDetection (updateDetection (updateDetection
      (updateDetection initialDetectionState
        .serial ["FTJHR20GPY"] [] "f") .serial ["FTJHR20GPY"] [] "f")
        .serial ["FTJHR20GPY"] [] "f") .imei [] ["490154203237518"] "f")
        .imei [] ["490154203237518"] "f") .imei [] ["490154203237518"] "f").confirmedImei2
      = .none := by
  decide

/-- C3 (amended): after a detection cycle the phase is `confirmed` exactly
when the confirmed serial and the confirmed primary IMEI are both non-null
(IMEI2 is not consulted); any confirmed value has support at least 3 in its
window; and once the phase is `confirmed` the loop entry schedules no
further cycle. -/
theorem C3_confirmed_iff :
    (∀ (prev : DetectionState) (st : FieldScreen) (serials imeis : List String) (img : String),
      ((updateDetection prev st serials imeis img).phase = .confirmed ↔
        ((updateDetection prev st serials imeis img).confirmedSerial.isSome ∧
          (updateDetection prev st serials imeis img).confirmedImei.isSome)) ∧
      (∀ v, (updateDetection prev st serials imeis img).confirmedSerial = some v →
        3 ≤ (updateDetection prev st serials imeis img).serialCandidates.count v) ∧
      (∀ v, (updateDetection prev st serials imeis img).confirmedImei = some v →
        3 ≤ (updateDetection prev st serials imeis img).imeiCandidates.count v)) ∧
    (∀ (isActive isProcessing : Bool),
      runDetectionLoopSchedules isActive isProcessing .confirmed = false) := by
  constructor
  · intro prev st serials imeis img
    refine ⟨?_, ?_, ?_⟩
    · cases st <;> simp only [updateDetection] <;> split_ifs <;> simp_all
    · intro v h
      cases st <;> simp only [updateDetection] at h ⊢ <;>
        exact (getMostFrequent_eq_some h).2.1
    · intro v h
      cases st <;> simp only [updateDetection] at h ⊢ <;>
        exact (getMostFrequent_eq_some h).2.1
  · intro isActive isProcessing
    simp [runDetectionLoopSchedules]

/-- C3 witness. -/
theorem C3_witness :
    3 ≤ (updateDetection
      ⟨.detecting, .serial, 0, ["AAAAAAAAAA", "AAAAAAAAAA"], [], [],
        .none, .none, .none, .none, .none, 2⟩
      .serial ["AAAAAAAAAA"] [] "f").serialCandidates.count "AAAAAAAAAA" :=
  (C3_confirmed_iff.1
    ⟨.detecting, .serial, 0, ["AAAAAAAAAA", "AAAAAAAAAA"], [], [],
      .none, .none, .none, .none, .none, 2⟩
    .serial ["AAAAAAAAAA"] [] "f").2.1 "AAAAAAAAAA" (by decide)

/-! ## C4 — the OCR mode is not restored when recognize throws -/

/-- C4: evaluating the fine pass with a throwing `recognize` call shows
that the page-segmentation mode is left at the fine-pass mode (single-line
for serial, single-block for IMEI) instead of being restored to
sparse-text, because the restoring `setParameters` call is not in a
`finally` block; on the success path the mode is restored. -/
theorem C4_psm_not_restored_on_error :
    (runFullExtraction ⟨.sparseText⟩ .serial (fun _ => .error ())).1.psm = .singleLine ∧
    (runFullExtraction ⟨.sparseText⟩ .imei (fun _ => .error ())).1.psm = .singleBlock ∧
    Psm.singleLine ≠ Psm.sparseText ∧
    Psm.singleBlock ≠ Psm.sparseText ∧
    (runFullExtraction ⟨.sparseText⟩ .serial (fun _ => .ok "")).1.psm = .sparseText ∧
    (runFullExtraction ⟨.sparseText⟩ .imei (fun _ => .ok "")).1.psm = .sparseText := by
  decide

/-! ## C5 — classification depends on the global regexes' lastIndex -/

/-- C5: two coarse-pass classifications of the identical recognized text
"Serial IMEI 35 693803 564380 9" return different screen types: the first
(fresh `lastIndex` 0) classifies `imei` via pattern presence and advances
`IMEI_PATTERN.lastIndex` to 30; the second, resuming from that carried-over
`lastIndex`, finds no IMEI pattern and falls back to keyword ordering,
classifying `serial`. -/
theorem C5_classification_depends_on_lastIndex :
    classifyScreen "Serial IMEI 35 693803 564380 9" 0 0 = (.imei, 0, 30) ∧
    (classifyScreen "Serial IMEI 35 693803 564380 9"
      (classifyScreen "Serial IMEI 35 693803 564380 9" 0 0).2.1
      (classifyScreen "Serial IMEI 35 693803 564380 9" 0 0).2.2).1 = .serial ∧
    ScreenType.serial ≠ ScreenType.imei := by
  decide

/-! ## C6 — the confidence formula -/

/-- C6: `calculateConfidence` equals the spec's formula
`min(100, round((maxCount/len) * 100 * (min(len,5)/5)))`, always lies in
[0, 100], yields at most 20 for a single sample, and yields exactly 100
for five identical samples. -/
theorem C6_confidence_formula :
    (∀ candidates : List String, calculateConfidence candidates = confidenceSpec candidates) ∧
    (∀ candidates : List String,
      0 ≤ calculateConfidence candidates ∧ calculateConfidence candidates ≤ 100) ∧
    (∀ s : String, calculateConfidence [s] ≤ 20) ∧
    (∀ s : String, calculateConfidence [s, s, s, s, s] = 100) := by
  refine ⟨calculateConfidence_eq_spec, calculateConfidence_bounds, ?_, ?_⟩
  · intro s
    have h : calculateConfidence [s] = 20 := by
      unfold calculateConfidence
      simp only [List.isEmpty_cons, if_false, Bool.false_eq_true]
      have h1 : mapMaxCount [s] = 1 := by
        simp [mapMaxCount, countsList, bump]
      rw [h1]
      norm_num
    rw [h]
  · intro s
    unfold calculateConfidence
    simp only [List.isEmpty_cons, if_false, Bool.false_eq_true]
    have h1 : mapMaxCount [s, s, s, s, s] = 5 := by
      simp [mapMaxCount, countsList, bump]
    rw [h1]
    norm_num

/-! ## C7 — serial extraction -/

/-- C7: every string returned by `extractSerialNumbers` is a contiguous run
of the text of 10 to 12 uppercase-letter/digit characters; the result is
de-duplicated; no returned string is exactly 15 digits; and in particular
extracting from "IMEI 356938035643809" does not include the 15-digit run
"356938035643809". -/
theorem C7_serial_extraction :
    (∀ (text s : String), s ∈ extractSerialNumbers text →
      10 ≤ s.length ∧ s.length ≤ 12 ∧ s.data.all isSerialChar = true ∧
        ¬ (s.length = 15 ∧ s.data.all Char.isDigit) ∧
        ∃ pre post, text.data = pre ++ (s.data ++ post)) ∧
    (∀ text : String, (extractSerialNumbers text).Nodup) ∧
    "356938035643809" ∉ extractSerialNumbers "IMEI 356938035643809" := by
  refine ⟨fun _ _ h => extractSerialNumbers_mem h, fun _ => jsSetDedup_nodup _, ?_⟩
  intro h
  rcases extractSerialNumbers_mem h with ⟨-, h12, -⟩
  exact absurd h12 (by decide)

/-- C7 witness. -/
theorem C7_witness :
    10 ≤ ("ABCDEFGHIJ" : String).length :=
  (C7_serial_extraction.1 "ABCDEFGHIJ" "ABCDEFGHIJ" (by decide)).1

/-! ## C8 — the Luhn check sums 14 digits, not 15 -/

/-- C8 (counterexample): at the spec's own known-valid IMEI 490154203237518
the source's `isValidImei` returns true while the spec's literal formula —
sum all 15 adjusted digits and require `(10 - (sum mod 10)) mod 10` to
equal the last digit — evaluates to false, so the code does not implement
that formula. -/
theorem C8_counterexample :
    isValidImei "490154203237518" = true ∧
    isValidImeiSpecLiteral "490154203237518" = false := by
  decide

/-- C8 (amended): `isValidImei` implements the Luhn check summing the 14
adjusted digits at indices 0..13 (not all 15) and comparing
`(10 - (sum mod 10)) mod 10` with the 15th digit; it returns true for the
known-valid IMEI 490154203237518, false for single-digit flips of it, and
false for any input whose normalized form is not exactly 15 decimal
digits. -/
theorem C8_luhn_over_14_digits :
    (∀ s : String, isValidImei s = isValidImeiSpec14 s) ∧
    isValidImei "490154203237518" = true ∧
    (∀ s : String,
      ¬ ((normalizeImei s).length = 15 ∧ (normalizeImei s).data.all Char.isDigit) →
        isValidImei s = false) ∧
    isValidImei "490154203237517" = false ∧
    isValidImei "490154203237519" = false ∧
    isValidImei "190154203237518" = false := by
  refine ⟨isValidImei_eq_spec14, by decide, ?_, by decide, by decide, by decide⟩
  intro s h
  simp only [isValidImei]
  rw [if_neg h]

/-- C8 witness. -/
theorem C8_witness :
    isValidImei "1234" = false :=
  C8_luhn_over_14_digits.2.2.1 "1234" (by decide)

/-! ## C9 — the crop rectangle -/

/-- C9 (counterexample): for the label box (0,0)-(1,1) in a 100-wide coarse
image over a 100×100 full image, the crop's right edge is at 5 (the width
is capped at 5 times the scaled label width), not at the full image's right
edge 100. -/
theorem C9_counterexample :
    (planCrop ⟨0, 0, 1, 1⟩ 100 100 100).x + (planCrop ⟨0, 0, 1, 1⟩ 100 100 100).w = 5 ∧
    ¬ ((planCrop ⟨0, 0, 1, 1⟩ 100 100 100).x + (planCrop ⟨0, 0, 1, 1⟩ 100 100 100).w
        = 100) := by
  norm_num [planCrop]

/-- C9 (amended): for a label box detected within the coarse image (and
whose rescaled form lies within the full image), the crop rectangle lies
entirely within [0, width] × [0, height] of the full image, and its right
edge is `min(width, x0·scaleUp + 5·labelWidth·scaleUp)` — it reaches the
full image's right edge only when five label widths span the remainder. -/
theorem C9_crop_bounds (b : Bbox) (lowW W H : ℚ)
    (hlow : 0 < lowW) (hW : 0 ≤ W)
    (hx0 : 0 ≤ b.x0) (hx01 : b.x0 ≤ b.x1) (hx1 : b.x1 ≤ lowW)
    (hy0 : 0 ≤ b.y0) (hy01 : b.y0 ≤ b.y1) (hy1 : b.y1 * (W / lowW) ≤ H) :
    0 ≤ (planCrop b lowW W H).x ∧ 0 ≤ (planCrop b lowW W H).y ∧
    0 ≤ (planCrop b lowW W H).w ∧ 0 ≤ (planCrop b lowW W H).h ∧
    (planCrop b lowW W H).x + (planCrop b lowW W H).w ≤ W ∧
    (planCrop b lowW W H).y + (planCrop b lowW W H).h ≤ H ∧
    (planCrop b lowW W H).x + (planCrop b lowW W H).w
      = min W (b.x0 * (W / lowW) + (b.x1 - b.x0) * (W / lowW) * 5) := by
  have hsu0 : 0 ≤ W / lowW := div_nonneg hW (le_of_lt hlow)
  have hsuW : lowW * (W / lowW) = W := by
    rw [mul_comm, div_mul_cancel₀]
    exact ne_of_gt hlow
  have hx0su : 0 ≤ b.x0 * (W / lowW) := mul_nonneg hx0 hsu0
  have hx1W : b.x1 * (W / lowW) ≤ W := by
    calc b.x1 * (W / lowW) ≤ lowW * (W / lowW) := by
          exact mul_le_mul_of_nonneg_right hx1 hsu0
      _ = W := hsuW
  have hx0W : b.x0 * (W / lowW) ≤ W :=
    le_trans (mul_le_mul_of_nonneg_right hx01 hsu0) hx1W
  have hy0su : 0 ≤ b.y0 * (W / lowW) := mul_nonneg hy0 hsu0
  have hy01su : b.y0 * (W / lowW) ≤ b.y1 * (W / lowW) :=
    mul_le_mul_of_nonneg_right hy01 hsu0
  have hlh : 0 ≤ (b.y1 - b.y0) * (W / lowW) :=
    mul_nonneg (by linarith) hsu0
  have hH : 0 ≤ H := le_trans (le_trans hy0su hy01su) hy1
  simp only [planCrop]
  rw [max_eq_right hx0su]
  have hymax : max 0 (b.y0 * (W / lowW) - (b.y1 - b.y0) * (W / lowW) * (1 / 2)) ≤ H := by
    apply max_le hH
    nlinarith
  have hwnn : 0 ≤ min (W - b.x0 * (W / lowW)) ((b.x1 - b.x0) * (W / lowW) * 5) := by
    apply le_min
    · linarith
    · have := mul_nonneg (sub_nonneg.mpr hx01) hsu0
      nlinarith
  have hhnn :
      0 ≤ min (H - max 0 (b.y0 * (W / lowW) - (b.y1 - b.y0) * (W / lowW) * (1 / 2)))
        ((b.y1 - b.y0) * (W / lowW) * 3 + (b.y1 - b.y0) * (W / lowW) * (1 / 2)) := by
    apply le_min
    · linarith
    · nlinarith
  refine ⟨hx0su, le_max_left _ _, hwnn, hhnn, ?_, ?_, ?_⟩
  · have := min_le_left (W - b.x0 * (W / lowW)) ((b.x1 - b.x0) * (W / lowW) * 5)
    linarith
  · have := min_le_left
      (H - max 0 (b.y0 * (W / lowW) - (b.y1 - b.y0) * (W / lowW) * (1 / 2)))
      ((b.y1 - b.y0) * (W / lowW) * 3 + (b.y1 - b.y0) * (W / lowW) * (1 / 2))
    linarith
  · rw [← min_add_add_left]
    congr 1
    ring

/-- C9 witness. -/
theorem C9_witness :
    (planCrop ⟨10, 10, 50, 20⟩ 100 200 300).x + (planCrop ⟨10, 10, 50, 20⟩ 100 200 300).w
      ≤ 200 :=
  (C9_crop_bounds ⟨10, 10, 50, 20⟩ 100 200 300 (by norm_num) (by norm_num) (by norm_num)
    (by norm_num) (by norm_num) (by norm_num) (by norm_num) (by norm_num)).2.2.2.2.1

/-! ## C10 — an IMEI cycle appends at most the first two extracted IMEIs -/

/-- C10: on a cycle classified as the IMEI screen, the serial history is
left unchanged; the primary IMEI history grows by at most one element,
every element of it coming from the previous history or from the first
extracted IMEI; and the IMEI2 history grows by at most one element, every
element coming from the previous history or from the second extracted
IMEI. Extracted IMEIs beyond the second are discarded. -/
theorem C10_imei_cycle_append :
    ∀ (prev : DetectionState) (serials imeis : List String) (img : String),
      (updateDetection prev .imei serials imeis img).serialCandidates
        = prev.serialCandidates ∧
      (updateDetection prev .imei serials imeis img).imeiCandidates.length
        ≤ prev.imeiCandidates.length + 1 ∧
      (updateDetection prev .imei serials imeis img).imei2Candidates.length
        ≤ prev.imei2Candidates.length + 1 ∧
      (∀ x, x ∈ (updateDetection prev .imei serials imeis img).imeiCandidates →
        x ∈ prev.imeiCandidates ∨ x ∈ imeis.take 1) ∧
      (∀ x, x ∈ (updateDetection prev .imei serials imeis img).imei2Candidates →
        x ∈ prev.imei2Candidates ∨ x ∈ (imeis.drop 1).take 1) := by
  intro prev serials imeis img
  refine ⟨rfl, ?_, ?_, ?_, ?_⟩
  · simp only [updateDetection]
    unfold takeLast
    calc ((prev.imeiCandidates ++ imeis.take 1).drop
          ((prev.imeiCandidates ++ imeis.take 1).length - 20)).length
        ≤ (prev.imeiCandidates ++ imeis.take 1).length := by
          rw [List.length_drop]; omega
      _ ≤ prev.imeiCandidates.length + 1 := by
          rw [List.length_append]
          have := List.length_take_le 1 imeis
          omega
  · simp only [updateDetection]
    split
    · unfold takeLast
      calc ((prev.imei2Candidates ++ (imeis.drop 1).take 1).drop
            ((prev.imei2Candidates ++ (imeis.drop 1).take 1).length - 20)).length
          ≤ (prev.imei2Candidates ++ (imeis.drop 1).take 1).length := by
            rw [List.length_drop]; omega
        _ ≤ prev.imei2Candidates.length + 1 := by
            rw [List.length_append]
            have := List.length_take_le 1 (imeis.drop 1)
            omega
    · omega
  · intro x hx
    simp only [updateDetection] at hx
    unfold takeLast at hx
    exact List.mem_append.mp (List.mem_of_mem_drop hx)
  · intro x hx
    simp only [updateDetection] at hx
    split at hx
    · unfold takeLast at hx
      exact List.mem_append.mp (List.mem_of_mem_drop hx)
    · exact Or.inl hx

/-- C10 witness. -/
theorem C10_witness :
    "490154203237518" ∈
        (⟨.scanning, .none, 0, [], [], [], .none, .none, .none, .none, .none, 0⟩
          : DetectionState).imeiCandidates ∨
      "490154203237518" ∈ ["490154203237518", "490154203237519", "490154203237510"].take 1 :=
  (C10_imei_cycle_append
    ⟨.scanning, .none, 0, [], [], [], .none, .none, .none, .none, .none, 0⟩
    [] ["490154203237518", "490154203237519", "490154203237510"] "f").2.2.2.1
    "490154203237518" (by decide)

end OcrScan
